import Mathlib

/-!
Verification of the CRPropa candidate-splitting modules.

Shallow embedding of `src/module/CandidateSplitting.cpp` and
`src/module/ParticleSplitting.cpp`.  Energies and weights (C++ `double`)
are modelled over a linear ordered field; the executable instantiation
used for concrete evaluations is `ℚ`, while the bin-table builders that
use real powers (`pow` with fractional exponents) live over `ℝ`.

The serial-number allocator (`Candidate::getNextSerialNumber` /
`setNextSerialNumber`) is modelled as an explicit natural-number counter
threaded through `process`.  A `process` call returns `none` exactly when
the C++ code performs the out-of-bounds vector read `Ebins[0]` on an
empty bin list (undefined behaviour); otherwise it returns the updated
candidate, the list of spawned secondaries in insertion order, and the
new counter value.
-/

namespace CRPropa

/-- The slice of the C++ `Candidate` that the splitting modules touch:
current and previous energy, statistical weight, serial number and the
parent link (modelled as the parent's serial number). -/
structure Candidate (α : Type) where
  currentE : α
  previousE : α
  weight : α
  serial : ℕ
  parent : Option ℕ
deriving DecidableEq, Repr

/-- Module state of `CandidateSplitting` (and of the near-duplicate
`ParticleSplittingModule`): the split multiplicity `n_split` and the
energy-bin edges `Ebins`. -/
structure CandidateSplitting (α : Type) where
  n_split : ℕ
  Ebins : List α
deriving DecidableEq, Repr

section ProcessDefs

variable {α : Type} [LinearOrderedField α]

/-- One clone as built inside `CandidateSplitting::process`:
`c->clone(false)` copies the transport state and the (already updated)
weight, then the clone's serial number, parent link and previous energy
are overwritten (`new_candidate->previous.setEnergy(currE)`). -/
def mkClone (c : Candidate α) (w currE : α) (snr : ℕ) : Candidate α :=
  { currentE := c.currentE, previousE := currE, weight := w,
    serial := snr, parent := some c.serial }

/-- The clone loop `for (int i = 1; i < n_split; i++)` of
`CandidateSplitting::process`, run `k = n_split - 1` times: each pass
draws the current counter value as serial number and advances the
counter by one. Returns the spawned clones in order and the new
counter. -/
def spawnClones (c : Candidate α) (w currE : α) : ℕ → ℕ → List (Candidate α) × ℕ
  | 0, ctr => ([], ctr)
  | k + 1, ctr =>
    let cl := mkClone c w currE ctr
    let r := spawnClones c w currE k (ctr + 1)
    (cl :: r.1, r.2)

/-- The inner loop `for (size_t j = i; j < Ebins.size(); ++j)` of
`CandidateSplitting::process`, acting on the suffix `Ebins[j..]` of the
edge list: per iteration multiply the weight by `1/n_split`, spawn
`n_split - 1` clones, and stop once the next edge exceeds `currE` or
the edges are exhausted. -/
def splitLoop (n : ℕ) (c : Candidate α) (currE : α) :
    α → List α → ℕ → α × List (Candidate α) × ℕ
  | w, [], ctr => (w, [], ctr)
  | w, _e :: rest, ctr =>
    let w' := w * (1 / (n : α))
    let r := spawnClones c w' currE (n - 1) ctr
    match rest with
    | [] => (w', r.1, r.2)
    | e' :: _ =>
      if currE < e' then (w', r.1, r.2)
      else
        let r2 := splitLoop n c currE w' rest r.2
        (r2.1, r.1 ++ r2.2.1, r2.2.2)

/-- The outer loop `for (size_t i = 0; i < Ebins.size(); ++i)` of
`CandidateSplitting::process`: find the first edge above `prevE`; if
`currE` is still below it the step stayed in one bin (no-op), otherwise
run the splitting loop from that edge. -/
def findLoop (n : ℕ) (c : Candidate α) (prevE currE w : α) :
    List α → ℕ → α × List (Candidate α) × ℕ
  | [], ctr => (w, [], ctr)
  | e :: rest, ctr =>
    if prevE < e then
      if currE < e then (w, [], ctr)
      else splitLoop n c currE w (e :: rest) ctr
    else findLoop n c prevE currE w rest ctr

/-- `CandidateSplitting::process`.  The C++ guard
`currE < Ebins[0] || n_split == 0` reads `Ebins[0]` unconditionally, so
on an empty bin list the read is out of bounds (undefined behaviour),
modelled as `none`.  Otherwise the call returns the candidate with its
possibly updated weight, the spawned secondaries, and the advanced
serial-number counter. -/
def process (m : CandidateSplitting α) (c : Candidate α) (ctr : ℕ) :
    Option (Candidate α × List (Candidate α) × ℕ) :=
  match m.Ebins with
  | [] => none
  | e0 :: _ =>
    if c.currentE < e0 ∨ m.n_split = 0 then some (c, [], ctr)
    else
      let r := findLoop m.n_split c c.previousE c.currentE c.weight m.Ebins ctr
      some ({ c with weight := r.1 }, r.2.1, r.2.2)

/-- One clone as built inside `ParticleSplittingModule::process`: unlike
the `CandidateSplitting` variant, the clone's previous energy is NOT
overwritten, so it keeps the cloned value `c.previousE`. -/
def mkClonePS (c : Candidate α) (w : α) (snr : ℕ) : Candidate α :=
  { currentE := c.currentE, previousE := c.previousE, weight := w,
    serial := snr, parent := some c.serial }

/-- Clone loop of `ParticleSplittingModule::process`. -/
def spawnClonesPS (c : Candidate α) (w : α) : ℕ → ℕ → List (Candidate α) × ℕ
  | 0, ctr => ([], ctr)
  | k + 1, ctr =>
    let cl := mkClonePS c w ctr
    let r := spawnClonesPS c w k (ctr + 1)
    (cl :: r.1, r.2)

/-- Inner splitting loop of `ParticleSplittingModule::process`. -/
def splitLoopPS (n : ℕ) (c : Candidate α) (currE : α) :
    α → List α → ℕ → α × List (Candidate α) × ℕ
  | w, [], ctr => (w, [], ctr)
  | w, _e :: rest, ctr =>
    let w' := w * (1 / (n : α))
    let r := spawnClonesPS c w' (n - 1) ctr
    match rest with
    | [] => (w', r.1, r.2)
    | e' :: _ =>
      if currE < e' then (w', r.1, r.2)
      else
        let r2 := splitLoopPS n c currE w' rest r.2
        (r2.1, r.1 ++ r2.2.1, r2.2.2)

/-- Outer loop of `ParticleSplittingModule::process`. -/
def findLoopPS (n : ℕ) (c : Candidate α) (prevE currE w : α) :
    List α → ℕ → α × List (Candidate α) × ℕ
  | [], ctr => (w, [], ctr)
  | e :: rest, ctr =>
    if prevE < e then
      if currE < e then (w, [], ctr)
      else splitLoopPS n c currE w (e :: rest) ctr
    else findLoopPS n c prevE currE w rest ctr

/-- `ParticleSplittingModule::process` (same guard and loop structure as
the `CandidateSplitting` variant; the only difference is in the clone's
previous energy). -/
def processPS (m : CandidateSplitting α) (c : Candidate α) (ctr : ℕ) :
    Option (Candidate α × List (Candidate α) × ℕ) :=
  match m.Ebins with
  | [] => none
  | e0 :: _ =>
    if c.currentE < e0 ∨ m.n_split = 0 then some (c, [], ctr)
    else
      let r := findLoopPS m.n_split c c.previousE c.currentE c.weight m.Ebins ctr
      some ({ c with weight := r.1 }, r.2.1, r.2.2)

/-- Number of bin boundaries a step from `prevE` to `currE` crosses:
the edges lying in the half-open interval `(prevE, currE]`.  (For a
strictly increasing edge list this is exactly the number of splitting
events `process` performs.) -/
def crossCount (edges : List α) (prevE currE : α) : ℕ :=
  (edges.filter fun e => decide (prevE < e ∧ e ≤ currE)).length

/-- A sequential run of `process` calls, one per listed candidate,
threading the serial-number counter; collects all spawned secondaries in
order.  A call whose guard would read out of bounds contributes
nothing. -/
def runSeq (m : CandidateSplitting α) : List (Candidate α) → ℕ → List (Candidate α) × ℕ
  | [], ctr => ([], ctr)
  | c :: cs, ctr =>
    match process m c ctr with
    | none => runSeq m cs ctr
    | some (_, secs, ctr') =>
      let r := runSeq m cs ctr'
      (secs ++ r.1, r.2)

end ProcessDefs

/-- The edge list built by `CandidateSplitting::setEnergyBins` (after the
`Emin > Emax` check): `nBins` edges, linear `Emin + i*dE` or logarithmic
`Emin * (Emax/Emin)^(i/(nBins-1))` (real power). -/
noncomputable def binEdges (Emin Emax : ℝ) (n_bins : ℕ) (log : Bool) : List ℝ :=
  let dE := (Emax - Emin) / n_bins
  (List.range n_bins).map fun (i : ℕ) =>
    if log then Emin * (Emax / Emin) ^ ((i : ℝ) / ((n_bins : ℝ) - 1))
    else Emin + (i : ℝ) * dE

/-- `CandidateSplitting::setEnergyBins`: throws (`Except.error`) iff
`Emin > Emax`, otherwise produces the edge list. -/
noncomputable def setEnergyBins (Emin Emax : ℝ) (n_bins : ℕ) (log : Bool) :
    Except String (List ℝ) :=
  if Emin > Emax then Except.error "CandidateSplitting: Emin > Emax!"
  else Except.ok (binEdges Emin Emax n_bins log)

/-- The spectral-index constructor
`CandidateSplitting(int SpectralIndex, double Emin, int factor)`:
rejects `SpectralIndex <= 0`, then builds log-spaced bins with
`Emax = Emin*10^factor`, `n_bins = factor + 1`, and sets
`n_split = (int) pow(10, SpectralIndex-1)` (truncation = floor for the
nonnegative powers of ten arising here). -/
noncomputable def fromSpectralIndex (SpectralIndex : ℤ) (Emin : ℝ) (factor : ℤ) :
    Except String (CandidateSplitting ℝ) :=
  if SpectralIndex ≤ 0 then Except.error "CandidateSplitting: spectralIndex <= 0 !"
  else
    let Emax := Emin * (10 : ℝ) ^ factor
    let n_bins := (factor + 1).toNat
    (setEnergyBins Emin Emax n_bins true).map fun eb =>
      { n_split := (⌊(10 : ℚ) ^ (SpectralIndex - 1)⌋).toNat, Ebins := eb }

/-- `ParticleSplittingModule::setEnergyBins`: same `Emin > Emax` check
and edge formulas as the `CandidateSplitting` variant, but it ends with
the unconditional print `std::cout << Ebins[0] << Ebins[n_bins-1]`
(ParticleSplitting.cpp line 106).  With `n_bins = 0` the built vector is
empty and both reads are out of bounds (undefined behaviour), modelled
as `none`; the throw happens before the loop and the print, so it stays
a defined error. -/
noncomputable def setEnergyBinsPS (Emin Emax : ℝ) (n_bins : ℕ) (log : Bool) :
    Option (Except String (List ℝ)) :=
  if Emin > Emax then some (Except.error "ParticleSplitting: Emin > Emax!")
  else if n_bins = 0 then none
  else some (Except.ok (binEdges Emin Emax n_bins log))

/-- The spectral-index constructor
`ParticleSplittingModule(int SpectralIndex, double Emin, int factor)`:
rejects only `SpectralIndex < 0` (throwing before any bin building),
then builds the same log table as the `CandidateSplitting` variant
through `setEnergyBinsPS`; `none` marks the out-of-bounds print reached
there when the bin count `factor + 1` is not positive. -/
noncomputable def fromSpectralIndexPS (SpectralIndex : ℤ) (Emin : ℝ) (factor : ℤ) :
    Option (Except String (CandidateSplitting ℝ)) :=
  if SpectralIndex < 0 then some (Except.error "ParticleSplitting: spectralIndex < 0 !")
  else
    let Emax := Emin * (10 : ℝ) ^ factor
    let n_bins := (factor + 1).toNat
    (setEnergyBinsPS Emin Emax n_bins true).map fun r =>
      r.map fun eb =>
        { n_split := (⌊(10 : ℚ) ^ (SpectralIndex - 1)⌋).toNat, Ebins := eb }

/-- The default-constructed `CandidateSplitting()`: `setNsplit(0)` and an
empty bin list. -/
def defaultCS : CandidateSplitting ℚ := { n_split := 0, Ebins := [] }

/-- A concrete module: `nSplit = 2`, edges `[1, 2]`. -/
def mEx : CandidateSplitting ℚ := { n_split := 2, Ebins := [1, 2] }

/-- A concrete candidate whose step `0.5 → 1.5` crosses one boundary of
`mEx`. -/
def cEx : Candidate ℚ :=
  { currentE := 3/2, previousE := 1/2, weight := 1, serial := 0, parent := none }

/-- A concrete candidate whose step `0.5 → 2.5` crosses both boundaries
of `mEx`. -/
def cEx2 : Candidate ℚ :=
  { currentE := 5/2, previousE := 1/2, weight := 1, serial := 0, parent := none }

section ProcessLemmas

variable {α : Type} [LinearOrderedField α]

/-- Closed form of the clone loop: the clones carry consecutive serial
numbers starting at the counter, and the counter advances by their
number. -/
lemma spawnClones_eq (c : Candidate α) (w currE : α) :
    ∀ k ctr, spawnClones c w currE k ctr =
      ((List.range' ctr k).map (mkClone c w currE), ctr + k)
  | 0, _ => by simp [spawnClones]
  | k + 1, ctr => by
    simp only [spawnClones, spawnClones_eq c w currE k (ctr + 1), List.range'_succ,
      List.map_cons, Prod.mk.injEq]
    exact ⟨trivial, by omega⟩

/-- Unfolding of `process` on an empty bin list: the guard's read of
`Ebins[0]` is out of bounds. -/
lemma process_nil (m : CandidateSplitting α) (c : Candidate α) (ctr : ℕ)
    (hE : m.Ebins = []) : process m c ctr = none := by
  simp only [process, hE]

/-- Unfolding of `process` on a nonempty bin list. -/
lemma process_cons (m : CandidateSplitting α) (c : Candidate α) (ctr : ℕ)
    (e0 : α) (rest : List α) (hE : m.Ebins = e0 :: rest) :
    process m c ctr =
      if c.currentE < e0 ∨ m.n_split = 0 then some (c, [], ctr)
      else
        some ({ c with
            weight := (findLoop m.n_split c c.previousE c.currentE c.weight (e0 :: rest) ctr).1 },
          (findLoop m.n_split c c.previousE c.currentE c.weight (e0 :: rest) ctr).2.1,
          (findLoop m.n_split c c.previousE c.currentE c.weight (e0 :: rest) ctr).2.2) := by
  simp only [process, hE]

/-- In the inner splitting loop over a strictly increasing edge suffix
whose head is at most `currE`, the number of splitting events equals the
number of suffix edges at most `currE`; the weight is multiplied by
`(1/n)` once per event and `n-1` clones are spawned per event. -/
lemma splitLoop_cross (n : ℕ) (c : Candidate α) (currE : α) :
    ∀ (rest : List α) (e : α) (w : α) (ctr : ℕ),
      (e :: rest).Pairwise (· < ·) → e ≤ currE →
      (splitLoop n c currE w (e :: rest) ctr).1
          = w * (1 / (n : α)) ^ (((e :: rest).filter fun x => decide (x ≤ currE)).length) ∧
      (splitLoop n c currE w (e :: rest) ctr).2.1.length
          = (((e :: rest).filter fun x => decide (x ≤ currE)).length) * (n - 1) := by
  intro rest
  induction rest with
  | nil =>
    intro e w ctr _ he
    simp [splitLoop, spawnClones_eq, List.filter, he]
  | cons e' rest' ih =>
    intro e w ctr hp he
    rw [List.pairwise_cons] at hp
    by_cases hlt : currE < e'
    · have hrest : ((e' :: rest').filter fun x => decide (x ≤ currE)) = [] := by
        rw [List.filter_eq_nil_iff]
        intro x hx
        rcases List.mem_cons.1 hx with hx | hx
        · subst hx; simpa using not_le.2 hlt
        · have : e' < x := (List.pairwise_cons.1 hp.2).1 x hx
          simpa using not_le.2 (hlt.trans this)
      simp [splitLoop, spawnClones_eq, hlt, List.filter_cons, he, hrest]
    · have he' : e' ≤ currE := not_lt.1 hlt
      have hrec := ih e' (w * (1 / (n : α))) ((spawnClones c (w * (1 / (n : α))) currE (n - 1) ctr).2) hp.2 he'
      simp only [splitLoop, hlt, if_false, spawnClones_eq] at hrec ⊢
      have hfe : ((e :: e' :: rest').filter fun x => decide (x ≤ currE))
          = e :: ((e' :: rest').filter fun x => decide (x ≤ currE)) := by
        rw [List.filter_cons, if_pos (by simpa using he)]
      rw [hfe]
      constructor
      · rw [hrec.1, List.length_cons, pow_succ]
        ring
      · simp only [List.length_append, hrec.2, List.length_map, List.length_range',
          List.length_cons]
        ring

/-- In the outer loop, when some edge lies in `(prevE, currE]`, the
number of splitting events equals `crossCount`. -/
lemma findLoop_cross (n : ℕ) (c : Candidate α) (prevE currE : α) :
    ∀ (edges : List α) (w : α) (ctr : ℕ), edges.Pairwise (· < ·) →
      (∃ x ∈ edges, prevE < x ∧ x ≤ currE) →
      (findLoop n c prevE currE w edges ctr).1
          = w * (1 / (n : α)) ^ crossCount edges prevE currE ∧
      (findLoop n c prevE currE w edges ctr).2.1.length
          = crossCount edges prevE currE * (n - 1) := by
  intro edges
  induction edges with
  | nil => rintro w ctr _ ⟨x, hx, _⟩; exact absurd hx (List.not_mem_nil x)
  | cons e rest ih =>
    intro w ctr hp hex
    rw [List.pairwise_cons] at hp
    by_cases hpe : prevE < e
    · have he : e ≤ currE := by
        obtain ⟨x, hx, _, hxc⟩ := hex
        rcases List.mem_cons.1 hx with hx | hx
        · exact hx ▸ hxc
        · exact le_of_lt (lt_of_lt_of_le (hp.1 x hx) hxc)
      have hnc : ¬ currE < e := not_lt.2 he
      have hsplit := splitLoop_cross n c currE rest e w ctr (List.pairwise_cons.2 hp) he
      have hfilter : ((e :: rest).filter fun x => decide (prevE < x ∧ x ≤ currE))
          = ((e :: rest).filter fun x => decide (x ≤ currE)) := by
        apply List.filter_congr
        intro x hx
        have hpx : prevE < x := by
          rcases List.mem_cons.1 hx with hx | hx
          · exact hx ▸ hpe
          · exact hpe.trans (hp.1 x hx)
        simp [hpx]
      simp only [findLoop, hpe, if_true, hnc, if_false, crossCount, hfilter]
      exact hsplit
    · have hex' : ∃ x ∈ rest, prevE < x ∧ x ≤ currE := by
        obtain ⟨x, hx, hpx, hxc⟩ := hex
        rcases List.mem_cons.1 hx with hx | hx
        · exact absurd (hx ▸ hpx) hpe
        · exact ⟨x, hx, hpx, hxc⟩
      have hcc : crossCount (e :: rest) prevE currE = crossCount rest prevE currE := by
        simp [crossCount, List.filter_cons, hpe]
      rw [hcc]
      simpa [findLoop, hpe] using ih w ctr hp.2 hex'

/-- Main crossing lemma for `process`: with a strictly increasing bin
list, `nSplit ≥ 1` and at least one crossed boundary, the call succeeds,
multiplies the weight by `(1/nSplit)^k` and spawns `k·(nSplit−1)`
secondaries, where `k = crossCount`. -/
lemma process_cross (m : CandidateSplitting α) (c : Candidate α) (ctr : ℕ)
    (hs : m.Ebins.Pairwise (· < ·)) (hn : 1 ≤ m.n_split)
    (hk : 1 ≤ crossCount m.Ebins c.previousE c.currentE) :
    ∃ secs ctr',
      process m c ctr =
        some ({ c with weight := c.weight *
            (1 / (m.n_split : α)) ^ crossCount m.Ebins c.previousE c.currentE }, secs, ctr') ∧
      secs.length = crossCount m.Ebins c.previousE c.currentE * (m.n_split - 1) := by
  have hex : ∃ x ∈ m.Ebins, c.previousE < x ∧ x ≤ c.currentE := by
    have : (m.Ebins.filter fun e => decide (c.previousE < e ∧ e ≤ c.currentE)) ≠ [] := by
      intro hnil
      rw [crossCount, hnil] at hk
      simp at hk
    obtain ⟨x, hx⟩ := List.exists_mem_of_ne_nil _ this
    have := List.mem_filter.1 hx
    exact ⟨x, this.1, of_decide_eq_true this.2⟩
  obtain ⟨x, hxmem, hpx, hxc⟩ := hex
  obtain ⟨e0, rest, hE⟩ : ∃ e0 rest, m.Ebins = e0 :: rest := by
    cases hEb : m.Ebins with
    | nil => rw [hEb] at hxmem; exact absurd hxmem (List.not_mem_nil x)
    | cons a l => exact ⟨a, l, rfl⟩
  have he0 : e0 ≤ c.currentE := by
    rw [hE] at hxmem hs
    rcases List.mem_cons.1 hxmem with hx | hx
    · exact hx ▸ hxc
    · exact le_of_lt (lt_of_lt_of_le ((List.pairwise_cons.1 hs).1 x hx) hxc)
  have hguard : ¬ (c.currentE < e0 ∨ m.n_split = 0) := by
    rintro (h | h)
    · exact absurd he0 (not_le.2 h)
    · omega
  have hfl := findLoop_cross m.n_split c c.previousE c.currentE m.Ebins c.weight ctr hs
    ⟨x, hxmem, hpx, hxc⟩
  rw [hE] at hfl
  refine ⟨(findLoop m.n_split c c.previousE c.currentE c.weight (e0 :: rest) ctr).2.1,
      (findLoop m.n_split c c.previousE c.currentE c.weight (e0 :: rest) ctr).2.2, ?_, ?_⟩
  · rw [process_cons m c ctr e0 rest hE, if_neg hguard, hfl.1, hE]
  · rw [hfl.2, hE]

@[simp] lemma mkClone_serial (c : Candidate α) (w currE : α) (s : ℕ) :
    (mkClone c w currE s).serial = s := rfl

@[simp] lemma mkClone_previousE (c : Candidate α) (w currE : α) (s : ℕ) :
    (mkClone c w currE s).previousE = currE := rfl

@[simp] lemma mkClone_currentE (c : Candidate α) (w currE : α) (s : ℕ) :
    (mkClone c w currE s).currentE = c.currentE := rfl

/-- Mapping the serial projection over a batch of freshly numbered
clones recovers the list of issued numbers. -/
lemma map_serial_mkClone (c : Candidate α) (w currE : α) (l : List ℕ) :
    (l.map (mkClone c w currE)).map Candidate.serial = l := by
  induction l with
  | nil => rfl
  | cons a l ih => simp [ih]

/-- One-step unfolding of the inner loop on a single remaining edge. -/
lemma splitLoop_single (n : ℕ) (c : Candidate α) (currE w e : α) (ctr : ℕ) :
    splitLoop n c currE w [e] ctr =
      (w * (1 / (n : α)),
       (spawnClones c (w * (1 / (n : α))) currE (n - 1) ctr).1,
       (spawnClones c (w * (1 / (n : α))) currE (n - 1) ctr).2) := rfl

/-- One-step unfolding of the inner loop when at least one further edge
remains. -/
lemma splitLoop_cons_cons (n : ℕ) (c : Candidate α) (currE w e e' : α)
    (rest' : List α) (ctr : ℕ) :
    splitLoop n c currE w (e :: e' :: rest') ctr =
      if currE < e' then
        (w * (1 / (n : α)),
         (spawnClones c (w * (1 / (n : α))) currE (n - 1) ctr).1,
         (spawnClones c (w * (1 / (n : α))) currE (n - 1) ctr).2)
      else
        ((splitLoop n c currE (w * (1 / (n : α))) (e' :: rest')
            (spawnClones c (w * (1 / (n : α))) currE (n - 1) ctr).2).1,
         (spawnClones c (w * (1 / (n : α))) currE (n - 1) ctr).1 ++
            (splitLoop n c currE (w * (1 / (n : α))) (e' :: rest')
              (spawnClones c (w * (1 / (n : α))) currE (n - 1) ctr).2).2.1,
         (splitLoop n c currE (w * (1 / (n : α))) (e' :: rest')
            (spawnClones c (w * (1 / (n : α))) currE (n - 1) ctr).2).2.2) := rfl

/-- Structure of the clone batch of the inner loop: consecutive serial
numbers starting at the incoming counter, final counter advanced by the
batch size, and every clone carries `previousE = currE` and the
original's current energy. -/
lemma splitLoop_clones (n : ℕ) (c : Candidate α) (currE : α) :
    ∀ (edges : List α) (w : α) (ctr : ℕ),
      ((splitLoop n c currE w edges ctr).2.1).map Candidate.serial
          = List.range' ctr ((splitLoop n c currE w edges ctr).2.1).length ∧
      (splitLoop n c currE w edges ctr).2.2
          = ctr + ((splitLoop n c currE w edges ctr).2.1).length ∧
      ∀ cl ∈ (splitLoop n c currE w edges ctr).2.1,
          cl.previousE = currE ∧ cl.currentE = c.currentE := by
  intro edges
  induction edges with
  | nil => intro w ctr; simp [splitLoop]
  | cons e rest ih =>
    intro w ctr
    cases rest with
    | nil =>
      rw [splitLoop_single, spawnClones_eq]
      refine ⟨?_, ?_, ?_⟩
      · rw [map_serial_mkClone, List.length_map, List.length_range']
      · rw [List.length_map, List.length_range']
      · intro cl hcl
        obtain ⟨s, _, rfl⟩ := List.mem_map.1 hcl
        simp
    | cons e' rest' =>
      rw [splitLoop_cons_cons]
      by_cases hlt : currE < e'
      · rw [if_pos hlt, spawnClones_eq]
        refine ⟨?_, ?_, ?_⟩
        · rw [map_serial_mkClone, List.length_map, List.length_range']
        · rw [List.length_map, List.length_range']
        · intro cl hcl
          obtain ⟨s, _, rfl⟩ := List.mem_map.1 hcl
          simp
      · rw [if_neg hlt]
        obtain ⟨h1, h2, h3⟩ := ih (w * (1 / (n : α)))
          ((spawnClones c (w * (1 / (n : α))) currE (n - 1) ctr).2)
        rw [spawnClones_eq] at h1 h2 h3 ⊢
        refine ⟨?_, ?_, ?_⟩
        · rw [List.map_append, map_serial_mkClone, h1, List.length_append,
            List.length_map, List.length_range', List.range'_append_1]
          congr 1
          omega
        · rw [h2, List.length_append, List.length_map, List.length_range']
          omega
        · intro cl hcl
          rcases List.mem_append.1 hcl with hcl | hcl
          · obtain ⟨s, _, rfl⟩ := List.mem_map.1 hcl
            simp
          · exact h3 cl hcl

/-- Same structure result for the outer loop. -/
lemma findLoop_clones (n : ℕ) (c : Candidate α) (prevE currE : α) :
    ∀ (edges : List α) (w : α) (ctr : ℕ),
      ((findLoop n c prevE currE w edges ctr).2.1).map Candidate.serial
          = List.range' ctr ((findLoop n c prevE currE w edges ctr).2.1).length ∧
      (findLoop n c prevE currE w edges ctr).2.2
          = ctr + ((findLoop n c prevE currE w edges ctr).2.1).length ∧
      ∀ cl ∈ (findLoop n c prevE currE w edges ctr).2.1,
          cl.previousE = currE ∧ cl.currentE = c.currentE := by
  intro edges
  induction edges with
  | nil => intro w ctr; simp [findLoop]
  | cons e rest ih =>
    intro w ctr
    by_cases hpe : prevE < e
    · by_cases hce : currE < e
      · simp [findLoop, hpe, hce]
      · simpa [findLoop, hpe, hce] using splitLoop_clones n c currE (e :: rest) w ctr
    · simpa [findLoop, hpe] using ih w ctr

/-- Structure of a successful `process` call: the spawned secondaries
carry the consecutive serial numbers `ctr, ctr+1, …`, the counter comes
back advanced past all of them, and every secondary has
`previousE = currentE = c.currentE`. -/
lemma process_secs (m : CandidateSplitting α) (c : Candidate α) (ctr : ℕ)
    (c' : Candidate α) (secs : List (Candidate α)) (ctr' : ℕ)
    (h : process m c ctr = some (c', secs, ctr')) :
    secs.map Candidate.serial = List.range' ctr secs.length ∧
    ctr' = ctr + secs.length ∧
    ∀ cl ∈ secs, cl.previousE = c.currentE ∧ cl.currentE = c.currentE := by
  cases hE : m.Ebins with
  | nil => rw [process_nil m c ctr hE] at h; exact absurd h (by simp)
  | cons e0 rest =>
    rw [process_cons m c ctr e0 rest hE] at h
    by_cases hg : c.currentE < e0 ∨ m.n_split = 0
    · rw [if_pos hg] at h
      simp only [Option.some.injEq, Prod.ext_iff] at h
      obtain ⟨-, h2, h3⟩ := h
      simp only [← h2, ← h3]
      simp
    · rw [if_neg hg] at h
      have hfl := findLoop_clones m.n_split c c.previousE c.currentE (e0 :: rest) c.weight ctr
      simp only [Option.some.injEq, Prod.ext_iff] at h
      obtain ⟨-, h2, h3⟩ := h
      simp only [← h2, ← h3]
      exact hfl

/-- `process` only ever modifies the candidate's weight: energies,
serial number and parent link come back unchanged. -/
lemma process_frame (m : CandidateSplitting α) (c : Candidate α) (ctr : ℕ)
    (c' : Candidate α) (secs : List (Candidate α)) (ctr' : ℕ)
    (h : process m c ctr = some (c', secs, ctr')) :
    c'.currentE = c.currentE ∧ c'.previousE = c.previousE ∧
    c'.serial = c.serial ∧ c'.parent = c.parent := by
  cases hE : m.Ebins with
  | nil => rw [process_nil m c ctr hE] at h; exact absurd h (by simp)
  | cons e0 rest =>
    rw [process_cons m c ctr e0 rest hE] at h
    by_cases hg : c.currentE < e0 ∨ m.n_split = 0
    · rw [if_pos hg] at h
      simp only [Option.some.injEq, Prod.ext_iff] at h
      obtain ⟨h1, -, -⟩ := h
      simp only [← h1]
      simp
    · rw [if_neg hg] at h
      simp only [Option.some.injEq, Prod.ext_iff] at h
      obtain ⟨h1, -, -⟩ := h
      simp only [← h1]
      simp

/-- When the previous and current energies coincide, the outer loop
finds them in the same bin (or past the last edge) and does nothing. -/
lemma findLoop_self (n : ℕ) (c : Candidate α) (E w : α) :
    ∀ (edges : List α) (ctr : ℕ), findLoop n c E E w edges ctr = (w, [], ctr) := by
  intro edges
  induction edges with
  | nil => intro ctr; simp [findLoop]
  | cons e rest ih =>
    intro ctr
    by_cases hpe : E < e
    · simp [findLoop, hpe]
    · simp [findLoop, hpe, ih]

/-- A candidate whose previous energy equals its current energy is never
split (given a nonempty bin list, so the guard's read is in bounds). -/
lemma process_noop_of_eq (m : CandidateSplitting α) (c : Candidate α) (ctr : ℕ)
    (hne : m.Ebins ≠ []) (hEq : c.previousE = c.currentE) :
    process m c ctr = some (c, [], ctr) := by
  cases hE : m.Ebins with
  | nil => exact absurd hE hne
  | cons e0 rest =>
    rw [process_cons m c ctr e0 rest hE]
    by_cases hg : c.currentE < e0 ∨ m.n_split = 0
    · rw [if_pos hg]
    · rw [if_neg hg]
      have hfl : findLoop m.n_split c c.previousE c.currentE c.weight (e0 :: rest) ctr
          = (c.weight, [], ctr) := by
        rw [hEq, findLoop_self]
      rw [hfl]

/-- Serial numbers issued by a sequential run: the spawned secondaries
carry exactly the consecutive counter values, so the final counter is
past all of them. -/
lemma runSeq_serials (m : CandidateSplitting α) :
    ∀ (cs : List (Candidate α)) (ctr : ℕ),
      ((runSeq m cs ctr).1).map Candidate.serial
          = List.range' ctr ((runSeq m cs ctr).1).length ∧
      (runSeq m cs ctr).2 = ctr + ((runSeq m cs ctr).1).length := by
  intro cs
  induction cs with
  | nil => intro ctr; simp [runSeq]
  | cons c cs' ih =>
    intro ctr
    cases hp : process m c ctr with
    | none => simpa [runSeq, hp] using ih ctr
    | some r =>
      obtain ⟨c', secs, ctr'⟩ := r
      have hsec := process_secs m c ctr c' secs ctr' hp
      have hih := ih ctr'
      simp only [runSeq, hp]
      constructor
      · rw [List.map_append, hsec.1, hih.1, List.length_append, hsec.2.1, List.range'_append_1]
        congr 1
        omega
      · rw [hih.2, List.length_append, hsec.2.1]
        omega

end ProcessLemmas

section BinLemmas

/-- The builder always emits exactly `n_bins` edges. -/
lemma binEdges_length (Emin Emax : ℝ) (n : ℕ) (log : Bool) :
    (binEdges Emin Emax n log).length = n := by
  simp [binEdges]

/-- Strict monotonicity of the edge list for `Emin < Emax`; the log
variant additionally needs `0 < Emin` and at least two bins (the source
divides by `n_bins - 1` there). -/
lemma binEdges_pairwise (Emin Emax : ℝ) (n : ℕ) (log : Bool)
    (hlt : Emin < Emax) (hlog : log = true → 0 < Emin ∧ 2 ≤ n) :
    (binEdges Emin Emax n log).Pairwise (· < ·) := by
  rw [binEdges, List.pairwise_map]
  rcases Nat.eq_zero_or_pos n with hn | hn
  · subst hn; simp
  refine (List.pairwise_lt_range n).imp ?_
  intro i j hij
  cases log with
  | false =>
    simp only [Bool.false_eq_true, if_false]
    have hdE : 0 < (Emax - Emin) / n := by
      apply div_pos (sub_pos.2 hlt)
      exact_mod_cast hn
    have hij' : (i : ℝ) < j := by exact_mod_cast hij
    have := mul_lt_mul_of_pos_right hij' hdE
    linarith
  | true =>
    obtain ⟨hEmin, hn2⟩ := hlog rfl
    simp only [if_true]
    apply mul_lt_mul_of_pos_left _ hEmin
    have hb : 1 < Emax / Emin := (one_lt_div hEmin).2 hlt
    rw [Real.rpow_lt_rpow_left_iff hb]
    have hden : (0 : ℝ) < (n : ℝ) - 1 := by
      have : (2 : ℝ) ≤ n := by exact_mod_cast hn2
      linarith
    rw [div_lt_div_iff_of_pos_right hden]
    exact_mod_cast hij

/-- `setEnergyBins` reduced on the accepting branch. -/
lemma setEnergyBins_ok (Emin Emax : ℝ) (n : ℕ) (log : Bool) (h : ¬ Emin > Emax) :
    setEnergyBins Emin Emax n log = Except.ok (binEdges Emin Emax n log) := by
  rw [setEnergyBins, if_neg h]

/-- `setEnergyBins` reduced on the throwing branch. -/
lemma setEnergyBins_throw (Emin Emax : ℝ) (n : ℕ) (log : Bool) (h : Emin > Emax) :
    setEnergyBins Emin Emax n log = Except.error "CandidateSplitting: Emin > Emax!" := by
  rw [setEnergyBins, if_pos h]

/-- The spectral-index constructor reduced on its fully accepting
path. -/
lemma fromSpectralIndex_pos (s : ℤ) (Emin : ℝ) (f : ℤ) (hs : 0 < s)
    (hE : Emin ≤ Emin * (10 : ℝ) ^ f) :
    fromSpectralIndex s Emin f = Except.ok
      { n_split := (⌊(10 : ℚ) ^ (s - 1)⌋).toNat,
        Ebins := binEdges Emin (Emin * (10 : ℝ) ^ f) (f + 1).toNat true } := by
  rw [fromSpectralIndex, if_neg (by omega)]
  show Except.map _ (setEnergyBins Emin (Emin * (10 : ℝ) ^ f) (f + 1).toNat true) = _
  rw [setEnergyBins_ok _ _ _ _ (not_lt.2 hE)]
  rfl

/-- With a positive `Emin` and a non-shrinking range the decade factor
is nonnegative (so the `ParticleSplitting` bin count `factor + 1` is
positive and its final print reads in bounds). -/
lemma factor_nonneg_of_le (Emin : ℝ) (f : ℤ) (hpos : 0 < Emin)
    (hE : Emin ≤ Emin * (10 : ℝ) ^ f) : 0 ≤ f := by
  by_contra hf
  push_neg at hf
  have h1 : (10 : ℝ) ^ f < 1 := zpow_lt_one_of_neg₀ (by norm_num) hf
  have h2 : Emin * (10 : ℝ) ^ f < Emin * 1 := mul_lt_mul_of_pos_left h1 hpos
  rw [mul_one] at h2
  linarith

/-- The `ParticleSplitting` spectral-index constructor reduced on its
fully accepting path: no throw, and the final print of
`ParticleSplittingModule::setEnergyBins` reads a nonempty vector. -/
lemma fromSpectralIndexPS_nonneg (s : ℤ) (Emin : ℝ) (f : ℤ) (hs : 0 ≤ s)
    (hpos : 0 < Emin) (hE : Emin ≤ Emin * (10 : ℝ) ^ f) :
    fromSpectralIndexPS s Emin f = some (Except.ok
      { n_split := (⌊(10 : ℚ) ^ (s - 1)⌋).toNat,
        Ebins := binEdges Emin (Emin * (10 : ℝ) ^ f) (f + 1).toNat true }) := by
  have hf : 0 ≤ f := factor_nonneg_of_le Emin f hpos hE
  rw [fromSpectralIndexPS, if_neg (by omega)]
  show Option.map _ (setEnergyBinsPS Emin (Emin * (10 : ℝ) ^ f) (f + 1).toNat true) = _
  rw [setEnergyBinsPS, if_neg (not_lt.2 hE), if_neg (by omega)]
  rfl

/-- `10^(3:ℝ)` as a real power. -/
lemma rpow_ten_three : (10 : ℝ) ^ (3 : ℝ) = 1000 := by
  rw [show (3 : ℝ) = ((3 : ℕ) : ℝ) by norm_num, Real.rpow_natCast]
  norm_num

/-- Cube root of 1000 as a real power. -/
lemma rpow_thousand_third : (1000 : ℝ) ^ ((1 : ℝ) / 3) = 10 := by
  rw [← rpow_ten_three, ← Real.rpow_mul (by norm_num : (0 : ℝ) ≤ 10)]
  norm_num

/-- `1000^(2/3)` as a real power. -/
lemma rpow_thousand_two_thirds : (1000 : ℝ) ^ ((2 : ℝ) / 3) = 100 := by
  rw [← rpow_ten_three, ← Real.rpow_mul (by norm_num : (0 : ℝ) ≤ 10)]
  norm_num

/-- The concrete log-spaced decade table `[1, 10, 100, 1000]`. -/
lemma binEdges_decades : binEdges 1 1000 4 true = [1, 10, 100, 1000] := by
  rw [binEdges]
  norm_num [List.range_succ]
  exact ⟨rpow_thousand_third, rpow_thousand_two_thirds⟩

end BinLemmas

section Claims

/-- Claim C1: a candidate whose step crosses exactly `k ≥ 1` bin
boundaries under a module with strictly increasing bins and
`nSplit ≥ 1` has its weight multiplied by exactly `(1/nSplit)^k` and
exactly `k·(nSplit−1)` new candidates appended to its secondary
collection by a single `process` call. -/
theorem candidateSplitting_weight_and_clone_law {α : Type} [LinearOrderedField α]
    (m : CandidateSplitting α) (c : Candidate α) (ctr k : ℕ)
    (hs : m.Ebins.Pairwise (· < ·)) (hn : 1 ≤ m.n_split)
    (hk : crossCount m.Ebins c.previousE c.currentE = k) (hk1 : 1 ≤ k) :
    ∃ c' secs ctr', process m c ctr = some (c', secs, ctr') ∧
      c'.weight = c.weight * (1 / (m.n_split : α)) ^ k ∧
      secs.length = k * (m.n_split - 1) := by
  subst hk
  obtain ⟨secs, ctr', hp, hlen⟩ := process_cross m c ctr hs hn hk1
  exact ⟨_, secs, ctr', hp, rfl, hlen⟩

/-- Witness for C1: the step `0.5 → 2.5` over bins `[1, 2]` with
`nSplit = 2` crosses `k = 2` boundaries, quarters the weight and spawns
two clones. -/
theorem candidateSplitting_weight_and_clone_law_witness :
    ∃ c' secs ctr', process mEx cEx2 10 = some (c', secs, ctr') ∧
      c'.weight = cEx2.weight * (1 / (mEx.n_split : ℚ)) ^ 2 ∧
      secs.length = 2 * (mEx.n_split - 1) :=
  candidateSplitting_weight_and_clone_law mEx cEx2 10 2
    (by norm_num [mEx]) (by norm_num [mEx])
    (by norm_num [crossCount, mEx, cEx2, List.filter]) (by norm_num)

/-- Counterexample to claim C2 as stated: a second `process` call with
identical previous/current energies performs the same splitting again —
the weight halves once more (1/2 → 1/4) and one further secondary is
appended, so the second call is NOT a no-op. -/
theorem process_not_idempotent_cex :
    (process mEx cEx 10).map (fun r => r.1.weight) = some (1/2) ∧
    ((process mEx cEx 10).bind fun r => process mEx r.1 r.2.2).map (fun r => r.1.weight)
      = some (1/4) ∧
    ((process mEx cEx 10).bind fun r => process mEx r.1 r.2.2).map (fun r => r.2.1.length)
      = some 1 ∧
    (1 : ℚ)/4 ≠ 1/2 := by
  refine ⟨?_, ?_, ?_, by norm_num⟩ <;>
    norm_num [process, mEx, cEx, findLoop, splitLoop, spawnClones, mkClone, Option.bind]

/-- Claim C2 amended: `process` is not idempotent on the original
candidate — since its previous energy is not advanced, a second call
with the unchanged energies repeats the splitting event: the weight
gains another factor `(1/nSplit)^k` (total `(1/nSplit)^(2k)`) and
another `k·(nSplit−1)` secondaries are appended. -/
theorem process_second_call_repeats_split {α : Type} [LinearOrderedField α]
    (m : CandidateSplitting α) (c : Candidate α) (ctr k : ℕ)
    (hs : m.Ebins.Pairwise (· < ·)) (hn : 1 ≤ m.n_split)
    (hk : crossCount m.Ebins c.previousE c.currentE = k) (hk1 : 1 ≤ k) :
    ∃ c1 secs1 ctr1 c2 secs2 ctr2,
      process m c ctr = some (c1, secs1, ctr1) ∧
      process m c1 ctr1 = some (c2, secs2, ctr2) ∧
      c2.weight = c.weight * (1 / (m.n_split : α)) ^ (2 * k) ∧
      secs1.length = k * (m.n_split - 1) ∧
      secs2.length = k * (m.n_split - 1) := by
  subst hk
  obtain ⟨secs1, ctr1, hp1, hlen1⟩ := process_cross m c ctr hs hn hk1
  set c1 : Candidate α := { c with weight := c.weight *
    (1 / (m.n_split : α)) ^ crossCount m.Ebins c.previousE c.currentE } with hc1
  have hcc : crossCount m.Ebins c1.previousE c1.currentE
      = crossCount m.Ebins c.previousE c.currentE := rfl
  obtain ⟨secs2, ctr2, hp2, hlen2⟩ := process_cross m c1 ctr1 hs hn (by rw [hcc]; exact hk1)
  refine ⟨c1, secs1, ctr1,
    { c1 with weight := c1.weight *
        (1 / (m.n_split : α)) ^ crossCount m.Ebins c1.previousE c1.currentE },
    secs2, ctr2, hp1, hp2, ?_, hlen1, by rw [hlen2, hcc]⟩
  show c1.weight * (1 / (m.n_split : α)) ^ crossCount m.Ebins c1.previousE c1.currentE
      = c.weight * (1 / (m.n_split : α)) ^ (2 * crossCount m.Ebins c.previousE c.currentE)
  have hw : c1.weight = c.weight *
      (1 / (m.n_split : α)) ^ crossCount m.Ebins c.previousE c.currentE := rfl
  rw [hcc, hw, two_mul, pow_add, mul_assoc]

/-- Witness for the amended C2: over bins `[1, 2]` with `nSplit = 2` and
the step `0.5 → 1.5` (`k = 1`) the double call ends at weight
`1·(1/2)² = 1/4` with one secondary per call. -/
theorem process_second_call_repeats_split_witness :
    ∃ c1 secs1 ctr1 c2 secs2 ctr2,
      process mEx cEx 10 = some (c1, secs1, ctr1) ∧
      process mEx c1 ctr1 = some (c2, secs2, ctr2) ∧
      c2.weight = cEx.weight * (1 / (mEx.n_split : ℚ)) ^ (2 * 1) ∧
      secs1.length = 1 * (mEx.n_split - 1) ∧
      secs2.length = 1 * (mEx.n_split - 1) :=
  process_second_call_repeats_split mEx cEx 10 1
    (by norm_num [mEx]) (by norm_num [mEx])
    (by norm_num [crossCount, mEx, cEx, List.filter]) (by norm_num)

/-- Claim C3 (evaluated at the failing input): on the default-constructed
module the bin list is empty, so the guard's read of `Ebins[0]` is out of
bounds for every candidate — modelled as `none` (undefined behaviour)
rather than the silent in-bounds no-op the claim asserts. -/
theorem process_default_module_oob (c : Candidate ℚ) (ctr : ℕ) :
    process defaultCS c ctr = none :=
  process_nil defaultCS c ctr rfl

/-- Counterexample to claim C4 as stated: `ParticleSplittingModule::process`
does not set the spawned clone's previous energy — the clone keeps
`prevE = 0.5 ≠ 1.5 = currE`, and a further call on the clone splits it
again instead of being a no-op. -/
theorem particleSplitting_clone_prev_energy_cex :
    processPS mEx cEx 10 = some
      (⟨3/2, 1/2, 1/2, 0, none⟩,
       [⟨3/2, 1/2, 1/2, 10, some 0⟩], 11) ∧
    (⟨3/2, 1/2, 1/2, 10, some 0⟩ : Candidate ℚ).previousE ≠ cEx.currentE ∧
    processPS mEx ⟨3/2, 1/2, 1/2, 10, some 0⟩ 11 ≠
      some (⟨3/2, 1/2, 1/2, 10, some 0⟩, [], 11) := by
  refine ⟨?_, by norm_num [cEx], ?_⟩
  · norm_num [processPS, mEx, cEx, findLoopPS, splitLoopPS, spawnClonesPS, mkClonePS]
  · have heval : processPS mEx ⟨3/2, 1/2, 1/2, 10, some 0⟩ 11 = some
        (⟨3/2, 1/2, 1/4, 10, some 0⟩,
         [⟨3/2, 1/2, 1/4, 11, some 10⟩], 12) := by
      norm_num [processPS, mEx, findLoopPS, splitLoopPS, spawnClonesPS, mkClonePS]
    intro hcontra
    rw [heval] at hcontra
    simp only [Option.some.injEq, Prod.mk.injEq] at hcontra
    exact List.cons_ne_nil _ _ hcontra.2.1

/-- Claim C4 amended (`CandidateSplitting` variant): every clone spawned
by `process` has its previous-energy snapshot set to the original's
current energy, and a subsequent `process` call on the clone (energies
unchanged) performs no splitting. -/
theorem candidateSplitting_clone_prev_energy {α : Type} [LinearOrderedField α]
    (m : CandidateSplitting α) (c : Candidate α) (ctr : ℕ)
    (c' : Candidate α) (secs : List (Candidate α)) (ctr' : ℕ)
    (h : process m c ctr = some (c', secs, ctr')) :
    ∀ cl ∈ secs, cl.previousE = c.currentE ∧ ∀ t, process m cl t = some (cl, [], t) := by
  have hne : m.Ebins ≠ [] := by
    intro hnil
    rw [process_nil m c ctr hnil] at h
    exact absurd h (by simp)
  intro cl hcl
  obtain ⟨-, -, hfields⟩ := process_secs m c ctr c' secs ctr' h
  obtain ⟨hprev, hcurr⟩ := hfields cl hcl
  refine ⟨hprev, fun t => process_noop_of_eq m cl t hne ?_⟩
  rw [hprev, hcurr]

/-- Witness for the amended C4: the clone spawned from the step
`0.5 → 1.5` carries `previousE = 1.5` and is not split again. -/
theorem candidateSplitting_clone_prev_energy_witness :
    (⟨3/2, 3/2, 1/2, 10, some 0⟩ : Candidate ℚ).previousE = cEx.currentE ∧
    process mEx ⟨3/2, 3/2, 1/2, 10, some 0⟩ 5 =
      some (⟨3/2, 3/2, 1/2, 10, some 0⟩, [], 5) := by
  have h := candidateSplitting_clone_prev_energy mEx cEx 10
    ⟨3/2, 1/2, 1/2, 0, none⟩ [⟨3/2, 3/2, 1/2, 10, some 0⟩] 11
    (by norm_num [process, mEx, cEx, findLoop, splitLoop, spawnClones, mkClone])
    ⟨3/2, 3/2, 1/2, 10, some 0⟩ (by simp)
  exact ⟨h.1, h.2 5⟩

/-- Claim C9: over any sequential run of `process` calls the spawned
candidates receive strictly increasing, pairwise distinct serial
numbers, and the counter ends past all of them. -/
theorem runSeq_serials_unique {α : Type} [LinearOrderedField α]
    (m : CandidateSplitting α) (cs : List (Candidate α)) (ctr : ℕ) :
    (((runSeq m cs ctr).1).map Candidate.serial).Nodup ∧
    (((runSeq m cs ctr).1).map Candidate.serial).Pairwise (· < ·) ∧
    ((runSeq m cs ctr).1).map Candidate.serial
        = List.range' ctr ((runSeq m cs ctr).1).length ∧
    (runSeq m cs ctr).2 = ctr + ((runSeq m cs ctr).1).length := by
  obtain ⟨h1, h2⟩ := runSeq_serials m cs ctr
  have hpl : (((runSeq m cs ctr).1).map Candidate.serial).Pairwise (· < ·) := by
    rw [h1]; exact List.pairwise_lt_range' ctr _
  exact ⟨hpl.imp (fun h => Nat.ne_of_lt h), hpl, h1, h2⟩

/-- Claim C10: `process` mutates at most the weight and the secondary
collection — the candidate's energies, serial number and parent link are
unchanged by the call. -/
theorem process_frame_effect {α : Type} [LinearOrderedField α]
    (m : CandidateSplitting α) (c : Candidate α) (ctr : ℕ)
    (c' : Candidate α) (secs : List (Candidate α)) (ctr' : ℕ)
    (h : process m c ctr = some (c', secs, ctr')) :
    c'.currentE = c.currentE ∧ c'.previousE = c.previousE ∧
    c'.serial = c.serial ∧ c'.parent = c.parent :=
  process_frame m c ctr c' secs ctr' h

/-- Witness for C10: the splitting call on the step `0.5 → 1.5` leaves
energies, serial number and parent of the original unchanged. -/
theorem process_frame_effect_witness :
    (⟨3/2, 1/2, 1/2, 0, none⟩ : Candidate ℚ).currentE = cEx.currentE ∧
    (⟨3/2, 1/2, 1/2, 0, none⟩ : Candidate ℚ).previousE = cEx.previousE ∧
    (⟨3/2, 1/2, 1/2, 0, none⟩ : Candidate ℚ).serial = cEx.serial ∧
    (⟨3/2, 1/2, 1/2, 0, none⟩ : Candidate ℚ).parent = cEx.parent :=
  process_frame_effect mEx cEx 10
    ⟨3/2, 1/2, 1/2, 0, none⟩ [⟨3/2, 3/2, 1/2, 10, some 0⟩] 11
    (by norm_num [process, mEx, cEx, findLoop, splitLoop, spawnClones, mkClone])

/-- Counterexample to claim C5 as stated: the configuration
`Emin = Emax = 1, nBins = 2, linear` is accepted at construction
(`Emin ≤ Emax`), yet the produced edges `[1, 1]` are not strictly
increasing. -/
theorem setEnergyBins_equal_bounds_cex :
    setEnergyBins 1 1 2 false = Except.ok [1, 1] ∧
    ¬ ([1, 1] : List ℝ).Pairwise (· < ·) := by
  constructor
  · rw [setEnergyBins_ok _ _ _ _ (by norm_num), binEdges]
    norm_num [List.range_succ]
  · intro h
    exact absurd ((List.pairwise_cons.1 h).1 1 (by simp)) (by norm_num)

/-- Claim C5 amended: for `Emin < Emax` (and, in the log case, `0 < Emin`
with at least two bins) the edge list has exactly the configured number
of edges and is strictly increasing. -/
theorem binEdges_count_and_strict_mono (Emin Emax : ℝ) (n : ℕ) (log : Bool)
    (hlt : Emin < Emax) (hlog : log = true → 0 < Emin ∧ 2 ≤ n) :
    (binEdges Emin Emax n log).length = n ∧ (binEdges Emin Emax n log).Pairwise (· < ·) :=
  ⟨binEdges_length Emin Emax n log, binEdges_pairwise Emin Emax n log hlt hlog⟩

/-- Witness for the amended C5: the log-spaced decade table on
`[1, 1000]` with four bins. -/
theorem binEdges_count_and_strict_mono_witness :
    (binEdges 1 1000 4 true).length = 4 ∧ (binEdges 1 1000 4 true).Pairwise (· < ·) :=
  binEdges_count_and_strict_mono 1 1000 4 true (by norm_num)
    (fun _ => ⟨by norm_num, by norm_num⟩)

/-- Counterexample to claim C6 as stated: for `spectralIndex = 2 > 0`,
`Emin = 1`, `decadeFactor = -1` the constructor produces no module at
all — the shrunk range makes `setEnergyBins` throw the `Emin > Emax`
ConfigError. -/
theorem fromSpectralIndex_no_module_cex :
    (0 : ℤ) < 2 ∧
    fromSpectralIndex 2 1 (-1) = Except.error "CandidateSplitting: Emin > Emax!" := by
  refine ⟨by norm_num, ?_⟩
  rw [fromSpectralIndex, if_neg (by norm_num)]
  show Except.map _ (setEnergyBins 1 ((1 : ℝ) * (10 : ℝ) ^ (-1 : ℤ)) ((-1 + 1 : ℤ)).toNat true) = _
  rw [setEnergyBins_throw _ _ _ _ (by norm_num)]
  rfl

/-- Claim C6 amended: for `spectralIndex > 0` and a non-shrinking decade
range (`Emin ≤ Emin·10^decadeFactor`) the spectral-index constructor
builds the log bin table with `Emax = Emin·10^decadeFactor` and
`nBins = decadeFactor + 1`, and sets
`nSplit = floor(10^(spectralIndex−1))`. -/
theorem fromSpectralIndex_spec (s : ℤ) (Emin : ℝ) (f : ℤ) (hs : 0 < s)
    (hE : Emin ≤ Emin * (10 : ℝ) ^ f) :
    ∃ m, fromSpectralIndex s Emin f = Except.ok m ∧
      m.n_split = (⌊(10 : ℚ) ^ (s - 1)⌋).toNat ∧
      m.Ebins = binEdges Emin (Emin * (10 : ℝ) ^ f) (f + 1).toNat true :=
  ⟨_, fromSpectralIndex_pos s Emin f hs hE, rfl, rfl⟩

/-- Witness for C6 (the spec's Scenario B): `spectralIndex = 2`,
`Emin = 1`, `decadeFactor = 3` gives `nSplit = 10` and edges
`[1, 10, 100, 1000]`. -/
theorem fromSpectralIndex_spec_witness :
    ∃ m, fromSpectralIndex 2 1 3 = Except.ok m ∧
      m.n_split = 10 ∧ m.Ebins = [1, 10, 100, 1000] := by
  obtain ⟨m, hm, hn, hb⟩ := fromSpectralIndex_spec 2 1 3 (by norm_num) (by norm_num)
  refine ⟨m, hm, ?_, ?_⟩
  · rw [hn, show ((2 : ℤ) - 1) = 1 by norm_num, zpow_one,
      show ⌊(10 : ℚ)⌋ = 10 from by exact_mod_cast Int.floor_intCast (α := ℚ) 10]
    rfl
  · rw [hb, show (1 : ℝ) * (10 : ℝ) ^ (3 : ℤ) = 1000 by norm_num,
      show ((3 : ℤ) + 1).toNat = 4 by decide]
    exact binEdges_decades

/-- Counterexample to claim C7 as stated: with `Emin = 1` and
`decadeFactor = -1` the `CandidateSplitting` spectral constructor throws
the `Emin > Emax` ConfigError even though `spectralIndex = 1 > 0`, so
"fails exactly when the index is non-positive" is false. -/
theorem fromSpectralIndex_pos_index_error_cex :
    (0 : ℤ) < 1 ∧
    fromSpectralIndex 1 1 (-1) = Except.error "CandidateSplitting: Emin > Emax!" := by
  refine ⟨by norm_num, ?_⟩
  rw [fromSpectralIndex, if_neg (by norm_num)]
  show Except.map _ (setEnergyBins 1 ((1 : ℝ) * (10 : ℝ) ^ (-1 : ℤ)) ((-1 + 1 : ℤ)).toNat true) = _
  rw [setEnergyBins_throw _ _ _ _ (by norm_num)]
  rfl

/-- Claim C7 amended: provided `0 < Emin` and a non-shrinking decade
range (`Emin ≤ Emin·10^decadeFactor` — so the bin-table check passes and
the `ParticleSplitting` variant's unconditional final print reads a
nonempty vector), the `CandidateSplitting` spectral constructor fails
exactly for `spectralIndex ≤ 0` and the `ParticleSplitting` variant
exactly for `spectralIndex < 0`.  Without these provisos construction
can also fail with the `Emin > Emax` ConfigError (counterexample above)
or reach the out-of-bounds print. -/
theorem spectral_ctor_error_iff (s : ℤ) (Emin : ℝ) (f : ℤ)
    (hpos : 0 < Emin) (hE : Emin ≤ Emin * (10 : ℝ) ^ f) :
    ((∃ msg, fromSpectralIndex s Emin f = Except.error msg) ↔ s ≤ 0) ∧
    ((∃ msg, fromSpectralIndexPS s Emin f = some (Except.error msg)) ↔ s < 0) := by
  constructor
  · constructor
    · rintro ⟨msg, hmsg⟩
      by_contra hs
      rw [fromSpectralIndex_pos s Emin f (by omega) hE] at hmsg
      exact absurd hmsg (by simp)
    · intro hs
      exact ⟨"CandidateSplitting: spectralIndex <= 0 !", by rw [fromSpectralIndex, if_pos hs]⟩
  · constructor
    · rintro ⟨msg, hmsg⟩
      by_contra hs
      rw [fromSpectralIndexPS_nonneg s Emin f (by omega) hpos hE] at hmsg
      exact absurd hmsg (by simp)
    · intro hs
      exact ⟨"ParticleSplitting: spectralIndex < 0 !", by rw [fromSpectralIndexPS, if_pos hs]⟩

/-- Witness for the amended C7 at `spectralIndex = 2, Emin = 1,
decadeFactor = 0`: neither variant errors. -/
theorem spectral_ctor_error_iff_witness :
    ((∃ msg, fromSpectralIndex 2 1 0 = Except.error msg) ↔ (2 : ℤ) ≤ 0) ∧
    ((∃ msg, fromSpectralIndexPS 2 1 0 = some (Except.error msg)) ↔ (2 : ℤ) < 0) :=
  spectral_ctor_error_iff 2 1 0 (by norm_num) (by norm_num)

/-- Claim C8: bin-table construction throws the ConfigError if and only
if `Emin > Emax`; for `Emin ≤ Emax` it never raises. -/
theorem setEnergyBins_error_iff (Emin Emax : ℝ) (n : ℕ) (log : Bool) :
    (∃ msg, setEnergyBins Emin Emax n log = Except.error msg) ↔ Emin > Emax := by
  by_cases h : Emin > Emax
  · simp [setEnergyBins_throw Emin Emax n log h, h]
  · simp [setEnergyBins_ok Emin Emax n log h, h]

end Claims

end CRPropa
